import Mathlib

/-!
Verification of the genesis-pipeline quality-filtering core.

The Go sources are shallowly embedded: strings become lists of characters,
Go loops become structural or fuel-bounded recursions, and the two regular
expressions of the filter are expanded into their finite literal alternatives.
-/

namespace Genesis

/-! Definitions: shallow embedding of the Go sources, together with the
specification-side reformulations used to state the claims. -/

/-- Model of Go strings.Contains: pat occurs as a contiguous substring of s. -/
def containsSub : List Char → List Char → Bool
  | [], pat => pat.isEmpty
  | c :: rest, pat => pat.isPrefixOf (c :: rest) || containsSub rest pat
/-- ASCII lowercasing of a single character, modelling the per-character case
folding done by Go strings.ToLower on the ASCII range. -/

def toLowerChar (c : Char) : Char :=
  if 65 ≤ c.toNat ∧ c.toNat ≤ 90 then Char.ofNat (c.toNat + 32) else c

/-- Model of Go strings.ToLower. -/
def toLowerGo (s : List Char) : List Char := s.map toLowerChar
/-- Model of Go unicode.IsSpace, the predicate used by strings.TrimSpace. -/
def isSpaceGo (c : Char) : Bool :=
  c.toNat = 32 || c.toNat = 9 || c.toNat = 10 || c.toNat = 11 || c.toNat = 12 ||
  c.toNat = 13 || c.toNat = 133 || c.toNat = 160 || c.toNat = 5760 ||
  (8192 ≤ c.toNat && c.toNat ≤ 8202) ||
  c.toNat = 8232 || c.toNat = 8233 || c.toNat = 8239 || c.toNat = 8287 ||
  c.toNat = 12288

/-- Model of Go strings.TrimSpace on character lists. -/
def trimSpaceL (s : List Char) : List Char :=
  ((s.dropWhile isSpaceGo).reverse.dropWhile isSpaceGo).reverse
/-- Model of Go strings.TrimSpace. -/
def trimSpaceGo (s : String) : String := String.mk (trimSpaceL s.toList)

/-- Model of Go strings.HasSuffix. -/
def hasSuffixGo (s pat : String) : Bool := pat.toList.isSuffixOf s.toList
/-! Data model from internal/model/paper.go.  Go zero values become default
field values; time.Time is abstracted as a number. -/

structure Link where
  URL : String := ""
  type : String := ""
  Title : String := ""
deriving DecidableEq

structure Paper where
  ID : String := ""
  Title : String := ""
  Abstract : String := ""
  Authors : List String := []
  Categories : List String := []
  UpdatedAt : Nat := 0
  Comments : String := ""
  DOI : String := ""
  JournalRef : String := ""
  Links : List Link := []
  Score : Int := 0
  ScoreDetails : List String := []
deriving DecidableEq

/-- Digit accumulation of the inner loop of Paper.Version: every decimal digit
from the given character list is folded into the value, any other character is
skipped without resetting the value. -/
def digitsAfter (cs : List Char) : Nat :=
  cs.foldl (fun v c => if 48 ≤ c.toNat ∧ c.toNat ≤ 57 then v * 10 + (c.toNat - 48) else v) 0

/-- Outer loop of Paper.Version: index i plus one is the argument, so the scan
visits index i first and walks down toward index zero, returning one when the
loop falls through. -/
def versionLoop (cs : List Char) : Nat → Nat
  | 0 => 1
  | i + 1 =>
    if cs[i]? = some 'v' ∧ i + 1 < cs.length then
      let v := digitsAfter (cs.drop (i + 1))
      if v > 0 then v else versionLoop cs i
    else versionLoop cs i

/-- Model of the Go method Paper.Version from internal/model/paper.go. -/
def Paper.Version (p : Paper) : Nat :=
  versionLoop p.ID.toList p.ID.toList.length
/-! Filter from internal/filter/filter.go. -/

def evaluationKeywords : List String :=
  ["evaluation", "experiment", "benchmark", "ablation", "baseline", "dataset", "metric"]

def hypeKeywords : List String :=
  ["revolutionary", "groundbreaking", "first ever", "first-ever"]

def frameworkKeywords : List String := ["framework", "perspective"]

def limitationKeywords : List String := ["limitation", "assumption", "constraint"]

/-- The case-insensitive regular expression
(accepted|to appear|camera[- ]?ready|proceedings) expanded into its finite
list of literal alternatives over lowercased text. -/
def acceptedLiterals : List String :=
  ["accepted", "to appear", "camera-ready", "camera ready", "cameraready", "proceedings"]

/-- Model of acceptedPattern.MatchString. -/
def matchAccepted (s : String) : Bool :=
  acceptedLiterals.any fun lit => containsSub (toLowerGo s.toList) lit.toList
/-- Whitespace class of the regular-expression engine: the characters matched
by a backslash-s item, so that a backslash-S item matches their complement. -/

def regexpSpace (c : Char) : Bool :=
  c.toNat = 9 || c.toNat = 10 || c.toNat = 12 || c.toNat = 13 || c.toNat = 32

/-- The four literal openings of the code-repository regular expression
https?://(github.com|gitlab.com)/ with the dots taken literally. -/
def repoLiterals : List String :=
  ["http://github.com/", "https://github.com/", "http://gitlab.com/", "https://gitlab.com/"]

/-- One anchored match attempt of the code-repository pattern: a literal
opening followed by at least one non-whitespace character. -/
def matchRepoAt (s : List Char) : Bool :=
  repoLiterals.any fun pre =>
    pre.toList.isPrefixOf s &&
      match s.drop pre.toList.length with
      | [] => false
      | c :: _ => !regexpSpace c

/-- Model of codeRepoPattern.MatchString: some position of the text starts a
match of the code-repository pattern. -/
def matchCodeRepo : List Char → Bool
  | [] => false
  | c :: rest => matchRepoAt (c :: rest) || matchCodeRepo rest

/-- Model of countKeywords from internal/filter/filter.go. -/
def countKeywords (text : String) (keywords : List String) : Nat :=
  let t := toLowerGo text.toList
  keywords.foldl (fun count kw => if containsSub t (toLowerGo kw.toList) then count + 1 else count) 0
/-- Model of containsAny from internal/filter/filter.go. -/
def containsAny (text : String) (keywords : List String) : Bool :=
  let t := toLowerGo text.toList
  keywords.any fun kw => containsSub t (toLowerGo kw.toList)

/-- Model of hasCodeLink from internal/filter/filter.go. -/
def hasCodeLink (paper : Paper) : Bool :=
  matchCodeRepo paper.Abstract.toList ||
  matchCodeRepo paper.Comments.toList ||
  paper.Links.any fun link => link.type == "code" || matchCodeRepo link.URL.toList
structure Filter where
  MinScore : Int := 60
deriving DecidableEq

/-- Model of NewFilter. -/
def NewFilter : Filter := { MinScore := 60 }
structure FilterResult where
  paper : Paper
  PassedLevel1 : Bool
  Score : Int
  Details : List String
deriving DecidableEq

/-- One conditional score block of Filter.evaluate: when the condition holds
the delta is added and the detail string is appended. -/
def applyMod (sd : Int × List String) (cond : Bool) (delta : Int) (msg : String) : Int × List String :=
  if cond then (sd.1 + delta, sd.2 ++ [msg]) else sd

/-- The two clamping statements at the end of Filter.evaluate. -/
def clampScore (score : Int) : Int :=
  let s1 := if score < 0 then 0 else score
  if s1 > 100 then 100 else s1
/-- Model of Filter.evaluate from internal/filter/filter.go. -/
def evaluate (paper : Paper) : FilterResult :=
  let evalCount := countKeywords paper.Abstract evaluationKeywords
  let hasAcceptedSignal := matchAccepted paper.Comments
  let hasDOI := paper.DOI != ""
  let hasJournalRef := paper.JournalRef != ""
  let hasStrongEvidence := decide (evalCount ≥ 3)
  let hasStrongSignal := hasAcceptedSignal || hasDOI || hasJournalRef || hasStrongEvidence
  let hasMinEvaluation := decide (evalCount ≥ 2)
  let passedLevel1 := hasStrongSignal && hasMinEvaluation
  let sd : Int × List String := (0, [])
  let sd := applyMod sd hasAcceptedSignal 30 "+30 接收信号"
  let sd := applyMod sd (hasDOI || hasJournalRef) 20 "+20 DOI/期刊引用"
  let sd := applyMod sd (decide (evalCount ≥ 3)) 15 "+15 强实证(评估词>=3)"
  let sd := applyMod sd (containsAny paper.Abstract ["ablation", "baseline"]) 10 "+10 消融/基线实验"
  let sd := applyMod sd (containsAny paper.Abstract ["dataset", "benchmark"]) 10 "+10 数据集/基准测试"
  let sd := applyMod sd (hasCodeLink paper) 10 "+10 代码链接"
  let sd := applyMod sd (containsAny paper.Abstract limitationKeywords) 5 "+5 局限性讨论"
  let sd := applyMod sd (decide (paper.Version ≥ 2)) 5 "+5 多版本迭代"
  let sd := applyMod sd (containsAny paper.Abstract hypeKeywords || containsAny paper.Title hypeKeywords) (-10) "-10 夸大营销词"
  let sd := applyMod sd (containsAny paper.Abstract frameworkKeywords && decide (evalCount = 0)) (-25) "-25 纯框架无评估"
  { paper := paper, PassedLevel1 := passedLevel1, Score := clampScore sd.1, Details := sd.2 }

/-- Model of Filter.FilterPassed from internal/filter/filter.go. -/
def FilterPassed (f : Filter) : List Paper → List Paper
  | [] => []
  | paper :: rest =>
    let result := evaluate paper
    if result.PassedLevel1 && decide (result.Score ≥ f.MinScore) then
      { paper with Score := result.Score, ScoreDetails := result.Details } :: FilterPassed f rest
    else FilterPassed f rest
/-! Specification-side reformulations of the scorer, used to state the claims. -/

/-- Number of distinct evaluation keywords occurring case-insensitively in the
abstract, each counted at most once, phrased as a filtered-list length. -/
def evalCountSpec (p : Paper) : Nat :=
  (evaluationKeywords.filter fun kw =>
    containsSub (toLowerGo p.Abstract.toList) (toLowerGo kw.toList)).length

/-- The ten score modifiers in evaluation order: fired condition, delta,
emitted detail string. -/
def modifierList (paper : Paper) : List (Bool × Int × String) :=
  let evalCount := countKeywords paper.Abstract evaluationKeywords
  [ (matchAccepted paper.Comments, 30, "+30 接收信号"),
    (paper.DOI != "" || paper.JournalRef != "", 20, "+20 DOI/期刊引用"),
    (decide (evalCount ≥ 3), 15, "+15 强实证(评估词>=3)"),
    (containsAny paper.Abstract ["ablation", "baseline"], 10, "+10 消融/基线实验"),
    (containsAny paper.Abstract ["dataset", "benchmark"], 10, "+10 数据集/基准测试"),
    (hasCodeLink paper, 10, "+10 代码链接"),
    (containsAny paper.Abstract limitationKeywords, 5, "+5 局限性讨论"),
    (decide (paper.Version ≥ 2), 5, "+5 多版本迭代"),
    (containsAny paper.Abstract hypeKeywords || containsAny paper.Title hypeKeywords, -10, "-10 夸大营销词"),
    (containsAny paper.Abstract frameworkKeywords && decide (countKeywords paper.Abstract evaluationKeywords = 0), -25, "-25 纯框架无评估") ]

/-- The raw additive score of the claim: the sum of the deltas of the fired
modifiers, before clamping. -/
def scoreSum (paper : Paper) : Int :=
  ((modifierList paper).map fun m => if m.1 then m.2.1 else 0).sum

/-- The detail strings of the fired modifiers, in evaluation order. -/
def detailList (paper : Paper) : List String :=
  (modifierList paper).filterMap fun m => if m.1 then some m.2.2 else none
/-! Helper lemmas. -/

/-- The AND-gate example paper of the specification. -/
def gatePaper : Paper :=
  { Abstract := "We propose a novel framework for understanding complex systems.",
    Comments := "Accepted at NeurIPS 2024" }
/-- A paper with an acceptance signal, a DOI, a code link, a limitation
discussion and a second version, but a hype title and no evaluation keyword. -/

def hypePaper : Paper :=
  { ID := "xv2",
    Title := "revolutionary",
    Abstract := "limitation",
    Comments := "accepted https://github.com/x/y",
    DOI := "10.1" }

/-- A paper that passes both filtering levels with a score of 85. -/
def passPaper : Paper :=
  { ID := "2301.00001v1",
    Abstract := "We run an evaluation experiment on a benchmark dataset with ablation and baseline metric.",
    Comments := "Accepted at ICML 2024",
    DOI := "10.1234/example" }
/-- The paper emitted by FilterPassed for passPaper. -/
def passPaperOut : Paper :=
  { passPaper with
    Score := 85,
    ScoreDetails :=
      ["+30 接收信号", "+20 DOI/期刊引用", "+15 强实证(评估词>=3)",
       "+10 消融/基线实验", "+10 数据集/基准测试"] }

/-- Modelled from the claim wording of C5: find the last literal v, parse the
maximal run of decimal digits immediately following it, return that value when
it is non-zero, and return one otherwise. -/
def VersionClaim (id : String) : Nat :=
  let cs := id.toList
  if 'v' ∈ cs then
    let afterLast := (cs.reverse.takeWhile fun c => c ≠ 'v').reverse
    let run := afterLast.takeWhile fun c => 48 ≤ c.toNat ∧ c.toNat ≤ 57
    let v := digitsAfter run
    if v > 0 then v else 1
  else 1

/-- The non-zero accumulated digit values of each eligible v position, in
left-to-right position order. -/
def versionCandidates (cs : List Char) : List Nat :=
  (List.range cs.length).filterMap fun i =>
    if cs[i]? = some 'v' ∧ i + 1 < cs.length then
      if digitsAfter (cs.drop (i + 1)) > 0 then some (digitsAfter (cs.drop (i + 1))) else none
    else none

/-- Amended version semantics: the candidate of the rightmost eligible v, and
one when no position yields a non-zero value. -/
def versionSpec (id : String) : Nat :=
  ((versionCandidates id.toList).getLast?).getD 1

/-- Decompose a list at the leftmost occurrence of sep into the part before
the occurrence and the part after it; none when sep does not occur. -/
def findSep (sep : List Char) : List Char → Option (List Char × List Char)
  | [] => none
  | c :: rest =>
    if sep.isPrefixOf (c :: rest) then some ([], (c :: rest).drop sep.length)
    else (findSep sep rest).map fun ab => (c :: ab.1, ab.2)

/-- Fuel-bounded model of Go strings.Split for a non-empty separator: cut at
the leftmost occurrence of the separator and continue after it. -/
def splitFuel (sep : List Char) : Nat → List Char → List (List Char)
  | 0, s => [s]
  | fuel + 1, s =>
    match findSep sep s with
    | none => [s]
    | some (a, b) => a :: splitFuel sep fuel b

/-- Model of Go strings.Split with a non-empty separator. -/
def splitGo (s sep : String) : List String :=
  (splitFuel sep.toList s.toList.length s.toList).map String.mk
/-- Model of extractID from the ArXiv client. -/
def extractID (rawID : String) : String :=
  match splitGo rawID ("/abs/") with
  | [_, b] => b
  | _ => rawID

structure atomLink where
  Href : String := ""
  Rel : String := ""
  type : String := ""
  Title : String := ""
deriving DecidableEq

/-- Model of extractLinks from the ArXiv client. -/
def extractLinks : List atomLink → List Link
  | [] => []
  | l :: rest =>
    if l.Href = "" then extractLinks rest
    else
      let linkType :=
        if containsSub l.type.toList ("pdf".toList) || hasSuffixGo l.Href (".pdf") then "pdf"
        else if l.Rel = "alternate" then "abstract"
        else if containsSub l.Href.toList ("github.com".toList) ||
            containsSub l.Href.toList ("gitlab.com".toList) then "code"
        else "other"
      { URL := l.Href, type := linkType, Title := l.Title } :: extractLinks rest
/-- Modelled from the claim wording of C8: the host of a URL, the segment
after the scheme separator up to the next slash. -/

def urlHost (u : String) : String :=
  match findSep ("://".toList) u.toList with
  | some (_, rest) => String.mk (rest.takeWhile fun c => c ≠ '/')
  | none => String.mk (u.toList.takeWhile fun c => c ≠ '/')

/-- Modelled from the claim wording of C8: link classification whose rule (c)
reads only the URL host. -/
def classifyLinkClaim (l : atomLink) : String :=
  if containsSub l.type.toList ("pdf".toList) || hasSuffixGo l.Href (".pdf") then "pdf"
  else if l.Rel = "alternate" then "abstract"
  else if containsSub (urlHost l.Href).toList ("github.com".toList) ||
      containsSub (urlHost l.Href).toList ("gitlab.com".toList) then "code"
  else "other"

/-- The classification the code performs per link, with rule (c) reading the
whole URL string. -/
def classifyLink (l : atomLink) : String :=
  if containsSub l.type.toList ("pdf".toList) || hasSuffixGo l.Href (".pdf") then "pdf"
  else if l.Rel = "alternate" then "abstract"
  else if containsSub l.Href.toList ("github.com".toList) ||
      containsSub l.Href.toList ("gitlab.com".toList) then "code"
  else "other"

/-- A link whose URL host is evil.com while its path mentions github.com. -/
def evilLink : atomLink := { Href := "http://evil.com/github.com", Rel := "related" }

/-- One left-to-right non-overlapping pass of Go strings.ReplaceAll replacing
each pair of consecutive spaces by one space. -/
def replacePairSpaces : List Char → List Char
  | [] => []
  | [c] => [c]
  | c1 :: c2 :: rest =>
    if c1 = ' ' ∧ c2 = ' ' then ' ' :: replacePairSpaces rest
    else c1 :: replacePairSpaces (c2 :: rest)

/-- Whether the text contains two consecutive spaces. -/
def containsPair (s : List Char) : Bool := containsSub s [' ', ' ']
/-- The collapse loop of cleanText: repeat the pair replacement while a
double space remains; the fuel bounds the number of iterations and the length
of the input is always enough. -/

def collapseLoop : Nat → List Char → List Char
  | 0, s => s
  | fuel + 1, s => if containsPair s then collapseLoop fuel (replacePairSpaces s) else s

/-- The newline replacement of cleanText. -/
def replaceNewlines (s : List Char) : List Char :=
  s.map fun c => if c = '\n' then ' ' else c
/-- Model of cleanText from the ArXiv client. -/
def cleanText (s : String) : String :=
  let t := replaceNewlines (trimSpaceL s.toList)
  String.mk (collapseLoop t.length t)

structure atomAuthor where
  Name : String := ""
deriving DecidableEq

structure atomCategory where
  Term : String := ""
deriving DecidableEq

/-- The Atom entry of the feed schema, with the comment, DOI and
journal-reference fields of the extended schema that the converter reads. -/
structure atomEntry where
  ID : String := ""
  Title : String := ""
  Summary : String := ""
  Published : Nat := 0
  Updated : Nat := 0
  Authors : List atomAuthor := []
  Categories : List atomCategory := []
  Links : List atomLink := []
  Comment : String := ""
  DOI : String := ""
  JournalRef : String := ""
deriving DecidableEq

structure atomFeed where
  Entries : List atomEntry := []
deriving DecidableEq

/-- Model of extractAuthors from the ArXiv client. -/
def extractAuthors : List atomAuthor → List String
  | [] => []
  | a :: rest =>
    let name := trimSpaceGo a.Name
    if name != "" then name :: extractAuthors rest else extractAuthors rest
/-- Model of extractCategories from the ArXiv client. -/
def extractCategories : List atomCategory → List String
  | [] => []
  | c :: rest =>
    let term := trimSpaceGo c.Term
    if term != "" then term :: extractCategories rest else extractCategories rest

/-- Model of Client.convertEntries from the ArXiv client. -/
def convertEntries (entries : List atomEntry) : List Paper :=
  entries.map fun entry =>
    { ID := extractID entry.ID,
      Title := cleanText entry.Title,
      Abstract := cleanText entry.Summary,
      Authors := extractAuthors entry.Authors,
      Categories := extractCategories entry.Categories,
      UpdatedAt := entry.Updated,
      Comments := cleanText entry.Comment,
      DOI := trimSpaceGo entry.DOI,
      JournalRef := trimSpaceGo entry.JournalRef,
      Links := extractLinks entry.Links }
/-- The outcome of the single HTTP GET of FetchPapers: either a transport
failure, or a response with a status code and a body that either decodes to a
feed or fails to decode. -/

inductive httpOutcome where
  | transportFailure : httpOutcome
  | response : Nat → Option atomFeed → httpOutcome
deriving DecidableEq

/-- The error taxonomy of the fetch boundary. -/
inductive fetchError where
  | httpRequestError : fetchError
  | unexpectedStatus : Nat → fetchError
  | decodeError : fetchError
deriving DecidableEq
/-- The query parameters of the request URL built by buildURL. -/
def buildParams (query : String) (limit : Int) : List (String × String) :=
  [("search_query", "all:" ++ query), ("start", "0"), ("max_results", toString limit)]

/-- Model of Client.FetchPapers: the single HTTP GET is abstracted as an
injected outcome carrying the transport result, the status code and the
decoded body; the model returns the result of the call together with the
query parameters of the URL it was issued against. -/
def FetchPapers (query : String) (limit : Int) (outcome : httpOutcome) :
    Except fetchError (List Paper) × List (String × String) :=
  let limit := if limit ≤ 0 then 10 else limit
  let params := buildParams query limit
  match outcome with
  | httpOutcome.transportFailure => (Except.error fetchError.httpRequestError, params)
  | httpOutcome.response code decoded =>
    if code ≠ 200 then (Except.error (fetchError.unexpectedStatus code), params)
    else
      match decoded with
      | none => (Except.error fetchError.decodeError, params)
      | some feed => (Except.ok (convertEntries feed.Entries), params)

/-! Theorems: helper lemmas followed by the claim theorems, their
counterexamples and their witnesses. -/

theorem foldl_applyMod (mods : List (Bool × Int × String)) (sd : Int × List String) :
    mods.foldl (fun sd m => applyMod sd m.1 m.2.1 m.2.2) sd =
      (sd.1 + ((mods.map fun m => if m.1 then m.2.1 else 0).sum),
       sd.2 ++ mods.filterMap fun m => if m.1 then some m.2.2 else none) := by
  induction mods generalizing sd with
  | nil => simp
  | cons m rest ih =>
      rw [List.foldl_cons, ih]
      cases hm : m.1 <;>
        simp [applyMod, hm, add_assoc, List.append_assoc]

theorem evaluate_eq_fold (p : Paper) :
    evaluate p =
      { paper := p,
        PassedLevel1 :=
          (matchAccepted p.Comments || p.DOI != "" || p.JournalRef != "" ||
            decide (countKeywords p.Abstract evaluationKeywords ≥ 3)) &&
          decide (countKeywords p.Abstract evaluationKeywords ≥ 2),
        Score := clampScore
          (((modifierList p).foldl (fun sd m => applyMod sd m.1 m.2.1 m.2.2) (0, [])).1),
        Details := ((modifierList p).foldl (fun sd m => applyMod sd m.1 m.2.1 m.2.2) (0, [])).2 } := by
  rfl

theorem evaluate_Score_eq (p : Paper) : (evaluate p).Score = clampScore (scoreSum p) := by
  rw [evaluate_eq_fold, foldl_applyMod]
  simp [scoreSum]

theorem evaluate_Details_eq (p : Paper) : (evaluate p).Details = detailList p := by
  rw [evaluate_eq_fold, foldl_applyMod]
  simp [detailList]

theorem clampScore_bounds (x : Int) : 0 ≤ clampScore x ∧ clampScore x ≤ 100 := by
  simp only [clampScore]
  split_ifs <;> omega

theorem clampScore_le (x b : Int) (hb : 0 ≤ b) (hx : x ≤ b) (hble : b ≤ 100) :
    clampScore x ≤ b := by
  simp only [clampScore]
  split_ifs <;> omega

theorem foldl_count {α : Type} (P : α → Bool) (l : List α) (n : Nat) :
    l.foldl (fun c a => if P a then c + 1 else c) n = n + (l.filter P).length := by
  induction l generalizing n with
  | nil => simp
  | cons a t ih =>
      cases h : P a
      · simp [h, ih]
      · simp [h, ih, List.filter_cons]
        omega

theorem countKeywords_eq_filter (text : String) (kws : List String) :
    countKeywords text kws =
      (kws.filter fun kw => containsSub (toLowerGo text.toList) (toLowerGo kw.toList)).length := by
  unfold countKeywords
  rw [foldl_count]
  omega

theorem countKeywords_eq_evalCountSpec (p : Paper) :
    countKeywords p.Abstract evaluationKeywords = evalCountSpec p := by
  rw [countKeywords_eq_filter]
  rfl

theorem countKeywords_zero_not_contained (text : String) (kws : List String)
    (h : countKeywords text kws = 0) :
    ∀ kw ∈ kws, containsSub (toLowerGo text.toList) (toLowerGo kw.toList) = false := by
  rw [countKeywords_eq_filter, List.length_eq_zero, List.filter_eq_nil_iff] at h
  intro kw hkw
  have := h kw hkw
  simpa using this

/-- C1: PassedLevel1 holds exactly when some strong signal (acceptance
pattern in Comments, non-empty DOI, non-empty JournalRef, or at least three
distinct evaluation keywords in the Abstract) is present AND at least two
distinct evaluation keywords occur in the Abstract; in particular the
spec example paper has zero evaluation keywords and fails Level 1 despite
its acceptance signal. -/
theorem passedLevel1_characterization :
    (∀ p : Paper,
      (evaluate p).PassedLevel1 = true ↔
        ((matchAccepted p.Comments = true ∨ p.DOI ≠ "" ∨ p.JournalRef ≠ "" ∨
            evalCountSpec p ≥ 3) ∧ evalCountSpec p ≥ 2)) ∧
    evalCountSpec gatePaper = 0 ∧
    matchAccepted gatePaper.Comments = true ∧
    (evaluate gatePaper).PassedLevel1 = false := by
  refine ⟨?_, by decide, by decide, by decide⟩
  intro p
  rw [evaluate_eq_fold]
  simp only [countKeywords_eq_evalCountSpec]
  simp [Bool.and_eq_true, Bool.or_eq_true, decide_eq_true_iff, or_assoc,
    String.ext_iff, bne]

/-- C2: the Level-2 score is the clamp into the interval from 0 to 100 of the
sum of the ten fixed modifiers applied in source order, and Details is the
ordered list of the detail strings of exactly the fired modifiers. -/
theorem score_details_additive (p : Paper) :
    (evaluate p).Score = clampScore (scoreSum p) ∧
    (evaluate p).Details = detailList p :=
  ⟨evaluate_Score_eq p, evaluate_Details_eq p⟩

/-- C3: every computed score, both in the FilterResult of evaluate and on
every paper returned by FilterPassed, lies between 0 and 100. -/
theorem score_range_invariant (f : Filter) (p : Paper) (papers : List Paper) :
    (0 ≤ (evaluate p).Score ∧ (evaluate p).Score ≤ 100) ∧
    ∀ q ∈ FilterPassed f papers, 0 ≤ q.Score ∧ q.Score ≤ 100 := by
  constructor
  · rw [evaluate_Score_eq]
    exact clampScore_bounds _
  · induction papers with
    | nil => intro q hq; simp [FilterPassed] at hq
    | cons a rest ih =>
        intro q hq
        rw [FilterPassed] at hq
        by_cases hc : ((evaluate a).PassedLevel1 && decide ((evaluate a).Score ≥ f.MinScore)) = true
        · rw [if_pos hc] at hq
          rcases List.mem_cons.mp hq with h | h
          · subst h
            simpa using (evaluate_Score_eq a ▸ clampScore_bounds (scoreSum a))
          · exact ih q h
        · rw [if_neg hc] at hq
          exact ih q hq

/-- Witness for C3 at a concrete passing paper. -/
theorem score_range_invariant_witness :
    0 ≤ passPaperOut.Score ∧ passPaperOut.Score ≤ 100 :=
  (score_range_invariant NewFilter passPaper [passPaper]).2 passPaperOut (by decide)
/-- C4: FilterPassed is exactly the stable sub-filter of the input that keeps,
in input order, the papers passing Level 1 with a score at least MinScore,
rewriting each kept paper with its computed Score and ScoreDetails; the
default filter has MinScore 60. -/

theorem filterPassed_stable_filter (f : Filter) (papers : List Paper) :
    FilterPassed f papers =
      (papers.filter fun p =>
        (evaluate p).PassedLevel1 && decide ((evaluate p).Score ≥ f.MinScore)).map
        (fun p => { p with Score := (evaluate p).Score, ScoreDetails := (evaluate p).Details }) ∧
    NewFilter.MinScore = 60 := by
  refine ⟨?_, rfl⟩
  induction papers with
  | nil => rfl
  | cons a rest ih =>
      rw [FilterPassed, List.filter_cons]
      by_cases hc : ((evaluate a).PassedLevel1 && decide ((evaluate a).Score ≥ f.MinScore)) = true
      · rw [if_pos hc, hc, ih]
        rfl
      · rw [if_neg hc, Bool.not_eq_true] at *
        rw [hc, ih]
        simp

/-- C6 counterexample: hypePaper has a Title containing revolutionary and an
Abstract with no evaluation keyword, yet its computed score is 60, which is
not below 50 as the claim states. -/
theorem hype_below_50_counterexample :
    containsSub (toLowerGo hypePaper.Title.toList) ("revolutionary".toList) = true ∧
    countKeywords hypePaper.Abstract evaluationKeywords = 0 ∧
    (evaluate hypePaper).Score = 60 ∧ ¬((evaluate hypePaper).Score < 50) := by
  decide

/-- C6 amended: a Paper whose lowercased Title contains revolutionary and
whose Abstract contains none of the seven evaluation keywords scores at most
60, regardless of Comments, DOI, JournalRef, Links, or version. -/
theorem hype_no_eval_score_bound (p : Paper)
    (ht : containsSub (toLowerGo p.Title.toList) ("revolutionary".toList) = true)
    (he : countKeywords p.Abstract evaluationKeywords = 0) :
    (evaluate p).Score ≤ 60 := by
  rw [evaluate_Score_eq]
  apply clampScore_le _ 60 (by norm_num) _ (by norm_num)
  have hnc := countKeywords_zero_not_contained p.Abstract evaluationKeywords he
  have hAbl : containsAny p.Abstract ["ablation", "baseline"] = false := by
    have h1 := hnc ("ablation") (by decide)
    have h2 := hnc ("baseline") (by decide)
    simp [containsAny]
    exact ⟨by simpa using h1, by simpa using h2⟩
  have hDat : containsAny p.Abstract ["dataset", "benchmark"] = false := by
    have h1 := hnc ("dataset") (by decide)
    have h2 := hnc ("benchmark") (by decide)
    simp [containsAny]
    exact ⟨by simpa using h1, by simpa using h2⟩
  have hHype : (containsAny p.Abstract hypeKeywords || containsAny p.Title hypeKeywords) = true := by
    have : containsAny p.Title hypeKeywords = true := by
      simp [containsAny, hypeKeywords]
      left
      have hlow : toLowerGo ("revolutionary".toList) = "revolutionary".toList := by decide
      simpa [hlow] using ht
    simp [this]
  simp only [scoreSum, modifierList, List.map_cons, List.map_nil, List.sum_cons,
    List.sum_nil, he, hAbl, hDat, hHype]
  split_ifs <;> first | omega | simp_all

/-- C6 witness: the amended bound applied to the concrete paper hypePaper. -/
theorem hype_no_eval_score_bound_witness :
    (evaluate hypePaper).Score ≤ 60 :=
  hype_no_eval_score_bound hypePaper (by decide) (by decide)
/-! Version parsing, claim C5. -/

theorem versionLoop_eq (cs : List Char) (n : Nat) :
    versionLoop cs n = (((List.range n).filterMap fun i =>
      if cs[i]? = some 'v' ∧ i + 1 < cs.length then
        if digitsAfter (cs.drop (i + 1)) > 0 then some (digitsAfter (cs.drop (i + 1))) else none
      else none).getLast?).getD 1 := by
  induction n with
  | zero => simp [versionLoop]
  | succ i ih =>
      rw [List.range_succ, List.filterMap_append, versionLoop]
      by_cases h : cs[i]? = some 'v' ∧ i + 1 < cs.length
      · by_cases hv : digitsAfter (cs.drop (i + 1)) > 0
        · simp [h, hv]
        · simp [h, hv, ih]
      · simp [h, ih]

/-- C5 counterexample: the code accumulates digits across non-digits and falls
back to earlier v positions, so on the identifiers v1.2 and v2v it disagrees
with the algorithm stated in the claim. -/
theorem version_claim_counterexample :
    (Paper.Version { ID := "v1.2" } = 12 ∧ VersionClaim ("v1.2") = 1) ∧
    (Paper.Version { ID := "v2v" } = 2 ∧ VersionClaim ("v2v") = 1) := by
  decide

/-- C5 amended: Version scans the identifier from its end; at every v that is
not the final character it accumulates every decimal digit occurring anywhere
after that v, skipping non-digits without resetting the value, and returns the
first such accumulated value that is non-zero, or one when no v yields one; in
particular the four spec examples hold. -/
theorem version_amended_correct (p : Paper) :
    p.Version = versionSpec p.ID ∧
    Paper.Version { ID := "2301.00001v2" } = 2 ∧
    Paper.Version { ID := "2301.00001" } = 1 ∧
    Paper.Version { ID := "2301.00001v10" } = 10 ∧
    Paper.Version { ID := "cs/0001001v3" } = 3 :=
  ⟨versionLoop_eq _ _, by decide, by decide, by decide, by decide⟩

theorem findSep_eq_some (sep : List Char) :
    ∀ s a b, findSep sep s = some (a, b) → s = a ++ sep ++ b := by
  intro s
  induction s with
  | nil => intro a b h; simp [findSep] at h
  | cons c rest ih =>
      intro a b h
      rw [findSep] at h
      by_cases hp : sep.isPrefixOf (c :: rest)
      · rw [if_pos hp, Option.some_inj, Prod.mk.injEq] at h
        obtain ⟨t, ht⟩ := List.isPrefixOf_iff_prefix.mp hp
        obtain ⟨ha, hb⟩ := h
        subst ha
        rw [← ht, List.drop_left] at hb
        simp [← ht, hb]
      · rw [if_neg hp, Option.map_eq_some'] at h
        obtain ⟨⟨a0, b0⟩, hrec, hab⟩ := h
        rw [Prod.mk.injEq] at hab
        obtain ⟨ha, hb⟩ := hab
        subst ha
        subst hb
        simp [ih a0 b0 hrec]

theorem findSep_none_iff (sep : List Char) (hsep : sep ≠ []) :
    ∀ s, findSep sep s = none ↔ containsSub s sep = false := by
  intro s
  induction s with
  | nil => simp [findSep, containsSub, List.isEmpty_iff, hsep]
  | cons c rest ih =>
      rw [findSep, containsSub]
      by_cases hp : sep.isPrefixOf (c :: rest)
      · simp [hp]
      · rw [if_neg hp]
        simp only [Option.map_eq_none', Bool.or_eq_false_iff]
        constructor
        · intro h
          exact ⟨Bool.eq_false_iff.mpr hp, ih.mp h⟩
        · intro h
          exact ih.mpr h.2

theorem splitFuel_ne_nil (sep : List Char) (fuel : Nat) (s : List Char) :
    splitFuel sep fuel s ≠ [] := by
  cases fuel with
  | zero => simp [splitFuel]
  | succ f =>
      rw [splitFuel]
      split <;> simp

theorem splitFuel_of_none (sep : List Char) (fuel : Nat) (s : List Char)
    (h : findSep sep s = none) : splitFuel sep fuel s = [s] := by
  cases fuel with
  | zero => rfl
  | succ f => rw [splitFuel, h]

theorem splitFuel_singleton (sep : List Char) (fuel : Nat) (t x : List Char)
    (h : splitFuel sep fuel t = [x]) : x = t := by
  cases fuel with
  | zero =>
      rw [splitFuel] at h
      simpa using h.symm
  | succ f =>
      rw [splitFuel] at h
      split at h
      · simpa using h.symm
      · rename_i a0 b0 heq
        simp only [List.cons.injEq] at h
        exact absurd h.2 (splitFuel_ne_nil sep f b0)

theorem splitFuel_pair (sep : List Char) (fuel : Nat) (s a b : List Char)
    (h : splitFuel sep fuel s = [a, b]) : findSep sep s = some (a, b) := by
  cases fuel with
  | zero =>
      rw [splitFuel] at h
      simp at h
  | succ f =>
      rw [splitFuel] at h
      split at h
      · simp at h
      · rename_i a0 b0 heq
        simp only [List.cons.injEq] at h
        obtain ⟨h1, h2⟩ := h
        have hb := splitFuel_singleton sep f b0 b h2
        rw [heq, h1, hb]

/-- C7 counterexample: when the abs segment occurs twice the split has three
parts, so the code returns the raw identifier unchanged even though the
segment is present, and the result is the substring following neither
occurrence. -/
theorem extractID_counterexample :
    extractID ("/abs/a/abs/b") = "/abs/a/abs/b" ∧
    containsSub ("/abs/a/abs/b".toList) ("/abs/".toList) = true ∧
    ("/abs/a/abs/b" : String) ≠ "a/abs/b" ∧ ("/abs/a/abs/b" : String) ≠ "b" := by
  decide

/-- C7 amended: identifier extraction splits the raw identifier on the abs
segment; when the segment is absent the identifier is returned unchanged; when
the split yields exactly two parts, so the segment occurs exactly once, the
part after the segment is returned; in every other case, that is when the
segment occurs more than once, the raw identifier is returned unchanged; the
three spec examples hold. -/
theorem extractID_amended_correct :
    (∀ s : String, containsSub s.toList ("/abs/".toList) = false → extractID s = s) ∧
    (∀ s a b : String, splitGo s ("/abs/") = [a, b] →
        extractID s = b ∧ s = a ++ "/abs/" ++ b) ∧
    (∀ s : String, (splitGo s ("/abs/")).length ≠ 2 → extractID s = s) ∧
    extractID ("http://x/abs/2301.00001v1") = "2301.00001v1" ∧
    extractID ("http://x/abs/cs/0001001") = "cs/0001001" ∧
    extractID ("invalid-id") = "invalid-id" := by
  refine ⟨?_, ?_, ?_, by decide, by decide, by decide⟩
  · intro s h
    have hnone : findSep ("/abs/".toList) s.toList = none :=
      (findSep_none_iff ("/abs/".toList) (by decide) s.toList).mpr h
    have hsplit : splitGo s ("/abs/") = [s] := by
      unfold splitGo
      rw [splitFuel_of_none _ _ _ hnone]
      rfl
    unfold extractID
    rw [hsplit]
  · intro s a b h
    have hshape : splitFuel ("/abs/".toList) s.toList.length s.toList = [a.toList, b.toList] := by
      unfold splitGo at h
      rcases hsf : splitFuel ("/abs/".toList) s.toList.length s.toList with _ | ⟨x, _ | ⟨y, _ | ⟨z, r⟩⟩⟩ <;>
        rw [hsf] at h <;> simp_all
      exact ⟨congrArg String.data h.1, congrArg String.data h.2⟩
    have hfind := splitFuel_pair _ _ _ _ _ hshape
    have hdec := findSep_eq_some _ _ _ _ hfind
    constructor
    · unfold extractID
      rw [h]
    · have : s = String.mk (a.toList ++ ("/abs/".toList) ++ b.toList) := by
        rw [← hdec]
        rfl
      rw [this]
      rfl
  · intro s h
    unfold extractID
    rcases hsf : splitGo s ("/abs/") with _ | ⟨x, _ | ⟨y, _ | ⟨z, r⟩⟩⟩ <;>
      first
        | rfl
        | (exact absurd (by rw [hsf]; rfl) h)

/-- C7 witness: the amended theorem applied at the no-segment example and at a
two-part split. -/
theorem extractID_amended_witness :
    extractID ("invalid-id") = "invalid-id" ∧
    extractID ("http://x/abs/cs/0001001") = "cs/0001001" ∧
    ("http://x/abs/cs/0001001" : String) = "http://x" ++ "/abs/" ++ "cs/0001001" :=
  ⟨extractID_amended_correct.1 ("invalid-id") (by decide),
   (extractID_amended_correct.2.1 ("http://x/abs/cs/0001001") ("http://x") ("cs/0001001") (by decide)).1,
   (extractID_amended_correct.2.1 ("http://x/abs/cs/0001001") ("http://x") ("cs/0001001") (by decide)).2⟩

/-- C8 counterexample: the program classifies evilLink as code although its
URL host contains neither github.com nor gitlab.com, so the classification
prescribed by the claim is other. -/
theorem linkType_host_counterexample :
    extractLinks [evilLink] =
      [{ URL := "http://evil.com/github.com", type := "code", Title := "" }] ∧
    urlHost evilLink.Href = "evil.com" ∧
    classifyLinkClaim evilLink = "other" := by
  decide

/-- C8 amended: links are classified with first match winning among (a) MIME
type containing pdf or URL ending in .pdf, (b) relation alternate, (c) the
URL string containing github.com or gitlab.com anywhere, not only in its
host, (d) other; links with empty URL are dropped and all others are kept in
feed order with URL and Title preserved. -/
theorem extractLinks_amended_correct (links : List atomLink) :
    extractLinks links =
      (links.filter fun l => l.Href != "").map
        fun l => { URL := l.Href, type := classifyLink l, Title := l.Title } := by
  induction links with
  | nil => rfl
  | cons l rest ih =>
      rw [extractLinks, List.filter_cons]
      by_cases h : l.Href = ""
      · rw [if_pos h, ih]
        simp [h]
      · rw [if_neg h, ih]
        simp [h, classifyLink]

/-- C9: FetchPapers defaults a non-positive limit to 10 in the request
parameters, fails exactly on transport failure, non-200 status (reporting the
code) and decode failure, and on success returns the normalized papers with
no error and no defaulting to an empty list. -/
theorem fetchPapers_error_contract (query : String) (limit : Int) (outcome : httpOutcome) :
    ((FetchPapers query limit outcome).2 =
      [("search_query", "all:" ++ query), ("start", "0"),
       ("max_results", toString (if limit ≤ 0 then (10 : Int) else limit))]) ∧
    ((FetchPapers query limit outcome).1 = Except.error fetchError.httpRequestError ↔
      outcome = httpOutcome.transportFailure) ∧
    (∀ code decoded, outcome = httpOutcome.response code decoded → code ≠ 200 →
      (FetchPapers query limit outcome).1 = Except.error (fetchError.unexpectedStatus code)) ∧
    (∀ code, outcome = httpOutcome.response code none → code = 200 →
      (FetchPapers query limit outcome).1 = Except.error fetchError.decodeError) ∧
    (∀ feed, outcome = httpOutcome.response 200 (some feed) →
      (FetchPapers query limit outcome).1 = Except.ok (convertEntries feed.Entries)) := by
  refine ⟨?_, ?_, ?_, ?_, ?_⟩
  · cases outcome with
    | transportFailure => rfl
    | response code decoded =>
        simp only [FetchPapers]
        split_ifs <;> cases decoded <;> rfl
  · cases outcome with
    | transportFailure => simp [FetchPapers]
    | response code decoded =>
        by_cases hc : code = 200
        · subst hc
          cases decoded <;> simp [FetchPapers, buildParams]
        · simp [FetchPapers, buildParams, hc]
  · intro code decoded hout hc
    subst hout
    simp [FetchPapers, buildParams, hc]
  · intro code hout hc
    subst hout
    subst hc
    simp [FetchPapers, buildParams]
  · intro feed hout
    subst hout
    simp [FetchPapers, buildParams]

/-- C9 witness: the contract applied at the three response shapes. -/
theorem fetchPapers_error_contract_witness :
    (FetchPapers ("q") (-1) (httpOutcome.response 500 none)).1 =
      Except.error (fetchError.unexpectedStatus 500) ∧
    (FetchPapers ("q") (-1) (httpOutcome.response 200 none)).1 =
      Except.error fetchError.decodeError ∧
    (FetchPapers ("q") (-1) (httpOutcome.response 200 (some { Entries := [] }))).1 =
      Except.ok (convertEntries ({ Entries := [] } : atomFeed).Entries) :=
  ⟨(fetchPapers_error_contract ("q") (-1) _).2.2.1 500 none rfl (by decide),
   (fetchPapers_error_contract ("q") (-1) _).2.2.2.1 200 rfl rfl,
   (fetchPapers_error_contract ("q") (-1) _).2.2.2.2 { Entries := [] } rfl⟩
/-! Lemmas about the pair replacement and the collapse loop. -/

theorem getLast?_cons_ne {α : Type} (a : α) (l : List α) (h : l ≠ []) :
    (a :: l).getLast? = l.getLast? := by
  cases l with
  | nil => exact absurd rfl h
  | cons b t => rfl

theorem replacePair_ne_nil (s : List Char) (h : s ≠ []) : replacePairSpaces s ≠ [] := by
  cases s with
  | nil => exact absurd rfl h
  | cons c t =>
      cases t with
      | nil => simp [replacePairSpaces]
      | cons d r =>
          rw [replacePairSpaces]
          split_ifs <;> simp

theorem replacePair_length_le (s : List Char) :
    (replacePairSpaces s).length ≤ s.length := by
  induction s using replacePairSpaces.induct with
  | case1 => simp [replacePairSpaces]
  | case2 c => simp [replacePairSpaces]
  | case3 c1 c2 rest h ih =>
      rw [replacePairSpaces, if_pos h]
      simp only [List.length_cons]
      omega
  | case4 c1 c2 rest h ih =>
      rw [replacePairSpaces, if_neg h]
      simp only [List.length_cons] at ih ⊢
      omega

theorem replacePair_length_lt :
    ∀ s : List Char, containsPair s = true → (replacePairSpaces s).length < s.length := by
  intro s
  induction s using replacePairSpaces.induct with
  | case1 => intro h; simp [containsPair, containsSub] at h
  | case2 c =>
      intro h
      simp [containsPair, containsSub, List.isPrefixOf] at h
  | case3 c1 c2 rest h ih =>
      intro _
      rw [replacePairSpaces, if_pos h]
      have := replacePair_length_le rest
      simp only [List.length_cons]
      omega
  | case4 c1 c2 rest h ih =>
      intro hc
      rw [replacePairSpaces, if_neg h]
      have htail : containsPair (c2 :: rest) = true := by
        rw [containsPair, containsSub] at hc
        simp only [Bool.or_eq_true] at hc
        rcases hc with hpf | htl
        · obtain ⟨t, ht⟩ := List.isPrefixOf_iff_prefix.mp hpf
          simp only [List.cons_append, List.nil_append, List.cons.injEq] at ht
          exact absurd ⟨ht.1.symm, ht.2.1.symm⟩ h
        · exact htl
      have := ih htail
      simp only [List.length_cons] at this ⊢
      omega

theorem mem_replacePair :
    ∀ s : List Char, ∀ c ∈ replacePairSpaces s, c ∈ s := by
  intro s
  induction s using replacePairSpaces.induct with
  | case1 => intro c hc; exact hc
  | case2 d => intro c hc; exact hc
  | case3 c1 c2 rest h ih =>
      intro c hc
      rw [replacePairSpaces, if_pos h] at hc
      rcases List.mem_cons.mp hc with hsp | hmem
      · subst hsp
        rw [h.1]
        exact List.mem_cons_self _ _
      · exact List.mem_cons_of_mem _ (List.mem_cons_of_mem _ (ih c hmem))
  | case4 c1 c2 rest h ih =>
      intro c hc
      rw [replacePairSpaces, if_neg h] at hc
      rcases List.mem_cons.mp hc with h1 | hmem
      · subst h1; exact List.mem_cons_self _ _
      · exact List.mem_cons_of_mem _ (ih c hmem)

theorem head?_replacePair (s : List Char) :
    (replacePairSpaces s).head? = s.head? := by
  induction s using replacePairSpaces.induct with
  | case1 => rfl
  | case2 c => rfl
  | case3 c1 c2 rest h ih =>
      rw [replacePairSpaces, if_pos h]
      simp [h.1]
  | case4 c1 c2 rest h ih =>
      rw [replacePairSpaces, if_neg h]
      rfl

theorem getLast?_replacePair (s : List Char) :
    (replacePairSpaces s).getLast? = s.getLast? := by
  induction s using replacePairSpaces.induct with
  | case1 => rfl
  | case2 c => rfl
  | case3 c1 c2 rest h ih =>
      rw [replacePairSpaces, if_pos h]
      cases rest with
      | nil => simp [replacePairSpaces, h.2]
      | cons d t =>
          rw [getLast?_cons_ne ' ' (replacePairSpaces (d :: t)) (replacePair_ne_nil _ (by simp)),
            ih, getLast?_cons_ne c1 (c2 :: d :: t) (by simp),
            getLast?_cons_ne c2 (d :: t) (by simp)]
  | case4 c1 c2 rest h ih =>
      rw [replacePairSpaces, if_neg h]
      rw [getLast?_cons_ne c1 (replacePairSpaces (c2 :: rest)) (replacePair_ne_nil _ (by simp)),
        ih, getLast?_cons_ne c1 (c2 :: rest) (by simp)]

theorem collapse_no_pair :
    ∀ (fuel : Nat) (s : List Char), s.length ≤ fuel →
      containsPair (collapseLoop fuel s) = false := by
  intro fuel
  induction fuel with
  | zero =>
      intro s hs
      have : s = [] := List.length_eq_zero.mp (Nat.le_zero.mp hs)
      subst this
      rfl
  | succ f ih =>
      intro s hs
      rw [collapseLoop]
      by_cases hc : containsPair s = true
      · rw [if_pos hc]
        have := replacePair_length_lt s hc
        exact ih _ (by omega)
      · rw [if_neg hc]
        exact Bool.eq_false_iff.mpr hc

theorem collapse_of_no_pair (fuel : Nat) (s : List Char) (h : containsPair s = false) :
    collapseLoop fuel s = s := by
  cases fuel with
  | zero => rfl
  | succ f => rw [collapseLoop, if_neg (by simp [h])]

theorem mem_collapse :
    ∀ (fuel : Nat) (s : List Char), ∀ c ∈ collapseLoop fuel s, c ∈ s := by
  intro fuel
  induction fuel with
  | zero => intro s c hc; exact hc
  | succ f ih =>
      intro s c hc
      rw [collapseLoop] at hc
      by_cases hp : containsPair s = true
      · rw [if_pos hp] at hc
        exact mem_replacePair s c (ih _ c hc)
      · rw [if_neg hp] at hc
        exact hc

theorem head?_collapse :
    ∀ (fuel : Nat) (s : List Char), (collapseLoop fuel s).head? = s.head? := by
  intro fuel
  induction fuel with
  | zero => intro s; rfl
  | succ f ih =>
      intro s
      rw [collapseLoop]
      by_cases hp : containsPair s = true
      · rw [if_pos hp, ih, head?_replacePair]
      · rw [if_neg hp]

theorem getLast?_collapse :
    ∀ (fuel : Nat) (s : List Char), (collapseLoop fuel s).getLast? = s.getLast? := by
  intro fuel
  induction fuel with
  | zero => intro s; rfl
  | succ f ih =>
      intro s
      rw [collapseLoop]
      by_cases hp : containsPair s = true
      · rw [if_pos hp, ih, getLast?_replacePair]
      · rw [if_neg hp]

theorem head?_dropWhile_not (p : Char → Bool) :
    ∀ (l : List Char) (c : Char), (l.dropWhile p).head? = some c → p c = false := by
  intro l
  induction l with
  | nil => intro c h; simp at h
  | cons a t ih =>
      intro c h
      by_cases hp : p a = true
      · rw [List.dropWhile_cons_of_pos hp] at h
        exact ih c h
      · rw [List.dropWhile_cons_of_neg hp] at h
        simp only [List.head?_cons, Option.some_inj] at h
        subst h
        exact Bool.eq_false_iff.mpr hp

theorem trimSpaceL_head (s : List Char) (c : Char)
    (h : (trimSpaceL s).head? = some c) : isSpaceGo c = false := by
  apply head?_dropWhile_not isSpaceGo s c
  have hpre : trimSpaceL s <+: s.dropWhile isSpaceGo := by
    have h1 : (s.dropWhile isSpaceGo).reverse.dropWhile isSpaceGo <:+ (s.dropWhile isSpaceGo).reverse :=
      List.dropWhile_suffix isSpaceGo
    have h2 := List.reverse_prefix.mpr h1
    rwa [List.reverse_reverse] at h2
  obtain ⟨t, ht⟩ := hpre
  rcases hr : trimSpaceL s with _ | ⟨d, r⟩
  · rw [hr] at h
    exact absurd h (by simp)
  · rw [hr] at h ht
    rw [← ht]
    simpa using h

theorem trimSpaceL_last (s : List Char) (c : Char)
    (h : (trimSpaceL s).getLast? = some c) : isSpaceGo c = false := by
  unfold trimSpaceL at h
  rw [← List.head?_reverse, List.reverse_reverse] at h
  exact head?_dropWhile_not isSpaceGo _ c h

theorem dropWhile_eq_self_of_head (p : Char → Bool) (l : List Char)
    (h : ∀ c, l.head? = some c → p c = false) : l.dropWhile p = l := by
  cases l with
  | nil => rfl
  | cons a t =>
      have := h a rfl
      rw [List.dropWhile_cons_of_neg (by simp [this])]

theorem trimSpaceL_eq_self (s : List Char)
    (hh : ∀ c, s.head? = some c → isSpaceGo c = false)
    (hl : ∀ c, s.getLast? = some c → isSpaceGo c = false) : trimSpaceL s = s := by
  unfold trimSpaceL
  rw [dropWhile_eq_self_of_head _ _ hh]
  rw [dropWhile_eq_self_of_head _ _ (fun c hc => hl c (by rwa [List.head?_reverse] at hc))]
  exact List.reverse_reverse s

theorem replaceNewlines_no_newline (s : List Char) :
    ∀ c ∈ replaceNewlines s, c ≠ '\n' := by
  intro c hc
  rw [replaceNewlines, List.mem_map] at hc
  obtain ⟨d, _, hfd⟩ := hc
  by_cases h : d = '\n'
  · rw [if_pos h] at hfd
    rw [← hfd]
    decide
  · rw [if_neg h] at hfd
    rw [← hfd]
    exact h

theorem replaceNewlines_eq_self (s : List Char) (h : ∀ c ∈ s, c ≠ '\n') :
    replaceNewlines s = s := by
  rw [replaceNewlines]
  have heach : ∀ c ∈ s, (if c = '\n' then ' ' else c) = id c := fun c hc => by
    simp [h c hc]
  rw [List.map_congr_left heach, List.map_id]

theorem isSpaceGo_newline : isSpaceGo '\n' = true := by decide

theorem cleanText_toList (s : String) :
    (cleanText s).toList =
      collapseLoop (replaceNewlines (trimSpaceL s.toList)).length
        (replaceNewlines (trimSpaceL s.toList)) := rfl

theorem cleanText_props (s : String) :
    (∀ c, (cleanText s).toList.head? = some c → isSpaceGo c = false) ∧
    (∀ c, (cleanText s).toList.getLast? = some c → isSpaceGo c = false) ∧
    (∀ c ∈ (cleanText s).toList, c ≠ '\n') ∧
    containsPair (cleanText s).toList = false := by
  rw [cleanText_toList]
  refine ⟨?_, ?_, ?_, collapse_no_pair _ _ (Nat.le_refl _)⟩
  · intro c hc
    rw [head?_collapse] at hc
    rw [replaceNewlines, List.head?_map] at hc
    rcases hd : (trimSpaceL s.toList).head? with _ | d
    · rw [hd] at hc
      exact absurd hc (by simp)
    · rw [hd] at hc
      simp only [Option.map_some', Option.some_inj] at hc
      have hds := trimSpaceL_head s.toList d hd
      have hdn : d ≠ '\n' := by
        intro hEq
        rw [hEq, isSpaceGo_newline] at hds
        cases hds
      rw [if_neg hdn] at hc
      rw [← hc]
      exact hds
  · intro c hc
    rw [getLast?_collapse] at hc
    rw [replaceNewlines, List.getLast?_map] at hc
    rcases hd : (trimSpaceL s.toList).getLast? with _ | d
    · rw [hd] at hc
      exact absurd hc (by simp)
    · rw [hd] at hc
      simp only [Option.map_some', Option.some_inj] at hc
      have hds := trimSpaceL_last s.toList d hd
      have hdn : d ≠ '\n' := by
        intro hEq
        rw [hEq, isSpaceGo_newline] at hds
        cases hds
      rw [if_neg hdn] at hc
      rw [← hc]
      exact hds
  · intro c hc
    exact replaceNewlines_no_newline (trimSpaceL s.toList) c (mem_collapse _ _ c hc)

/-- C10: cleanText is idempotent, because its output never has leading or
trailing whitespace, never contains a newline, and never contains two
consecutive spaces, so cleaning an already-clean text leaves it unchanged. -/
theorem cleanText_idempotent (s : String) :
    cleanText (cleanText s) = cleanText s ∧
    ((cleanText s).toList.head?.all fun c => !isSpaceGo c) = true ∧
    ((cleanText s).toList.getLast?.all fun c => !isSpaceGo c) = true ∧
    ((cleanText s).toList.all fun c => !(c == '\n')) = true ∧
    containsPair (cleanText s).toList = false := by
  obtain ⟨hh, hl, hn, hp⟩ := cleanText_props s
  refine ⟨?_, ?_, ?_, ?_, hp⟩
  · have h2 : (cleanText (cleanText s)).toList = (cleanText s).toList := by
      rw [cleanText_toList (cleanText s), trimSpaceL_eq_self _ hh hl,
        replaceNewlines_eq_self _ hn, collapse_of_no_pair _ _ hp]
    calc cleanText (cleanText s) = String.mk (cleanText (cleanText s)).toList := rfl
      _ = String.mk (cleanText s).toList := by rw [h2]
      _ = cleanText s := rfl
  · rcases hc : (cleanText s).toList.head? with _ | c
    · rfl
    · show (!isSpaceGo c) = true
      rw [hh c hc]
      rfl
  · rcases hc : (cleanText s).toList.getLast? with _ | c
    · rfl
    · show (!isSpaceGo c) = true
      rw [hl c hc]
      rfl
  · rw [List.all_eq_true]
    intro c hc
    simpa using hn c hc

end Genesis
